import Mathlib

/-!
Verification of the sat-solve repository's core engine: the CNF formula
model, the depth-first brute-force search, and the all-solutions driver
with blocking clauses.

The Rust source (`src/solver.rs` and the struct-based variant in
`types.rs`, `solvers/dfs.rs`, `sat-lib/solver.rs`) is embedded shallowly:

* `Variable`, `Clause`, `Formula` mirror the Rust types (a clause is a
  vector of signed literals, a formula a vector of clauses);
* the Rust `Solution` (a `HashMap<u32, bool>`) is modelled as an
  association list with unique keys; `lookupVal`, `insertVal` and
  `eraseKey` model `get`, `insert` and `remove`.  `insertVal` replaces
  an existing binding in place and otherwise appends, which fixes one
  deterministic iteration order for the unordered hash map;
* `brute_force` threads the mutated buffer explicitly and returns the
  pair (success flag, final buffer state);
* the `while let` loop of `solve_all` is written with explicit fuel
  (`solve_all_loop`); `solve_all` runs it with fuel `2 ^ n` for `n`
  referenced literals, and the stability theorems below show that this
  fuel is never exhausted, which is the termination argument of the
  original loop.
-/

inductive Variable where
  | Positive : Nat → Variable
  | Negative : Nat → Variable
deriving DecidableEq, Repr

/-- The literal id of a variable occurrence, ignoring polarity. -/
def Variable.varId : Variable → Nat
  | .Positive id => id
  | .Negative id => id

/-- A clause is a disjunction of variables (Rust: `type Clause = Vec<Variable>`). -/
abbrev Clause := List Variable

/-- A formula is a conjunction of clauses (Rust: `type Formula = Vec<Clause>`). -/
abbrev Formula := List Clause

/-- An assignment, Rust `type Solution = HashMap<u32, bool>`, modelled as an
association list with unique keys. -/
abbrev Solution := List (Nat × Bool)

/-- `HashMap::get`: the value bound to `id`, if any. -/
def lookupVal : Solution → Nat → Option Bool
  | [], _ => none
  | (k, v) :: rest, id => if k = id then some v else lookupVal rest id

/-- `HashMap::insert`: replace an existing binding in place, else append. -/
def insertVal : Solution → Nat → Bool → Solution
  | [], id, v => [(id, v)]
  | (k, w) :: rest, id, v =>
    if k = id then (id, v) :: rest else (k, w) :: insertVal rest id v

/-- `HashMap::remove`: drop the binding for `id`. -/
def eraseKey : Solution → Nat → Solution
  | [], _ => []
  | (k, w) :: rest, id => if k = id then rest else (k, w) :: eraseKey rest id

/-- Rust `eval_variable` (`src/solver.rs`): an unbound id defaults to `false`
(`unwrap_or(&false)`). -/
def eval_variable (v : Variable) (solution : Solution) : Bool :=
  match v with
  | .Positive id => (lookupVal solution id).getD false
  | .Negative id => !(lookupVal solution id).getD false

/-- Rust `satisfy_clause`: a clause is satisfied if at least one of its
variables is true. -/
def satisfy_clause (clause : Clause) (solution : Solution) : Bool :=
  clause.any (fun v => eval_variable v solution)

/-- Rust `satisfy_formula`: a formula is satisfied if all of its clauses are
satisfied. -/
def satisfy_formula (formula : Formula) (solution : Solution) : Bool :=
  formula.all (fun c => satisfy_clause c solution)

/-- Rust `Vec::dedup`: remove consecutive duplicate elements. -/
def dedupAdjacent : List Nat → List Nat
  | [] => []
  | [x] => [x]
  | x :: y :: rest =>
    if x = y then dedupAdjacent (y :: rest) else x :: dedupAdjacent (y :: rest)

/-- Rust `get_variables`: collect every referenced literal id, sort, dedup.
`Vec::sort` is modelled by insertion sort (any sort satisfies its contract;
stability is irrelevant on a list of plain ids). -/
def get_variables (formula : Formula) : List Nat :=
  dedupAdjacent
    (List.insertionSort (· ≤ ·) ((formula.map (fun clause => clause.map Variable.varId)).flatten))

/-- Rust `brute_force` (`src/solver.rs` / `solvers/dfs.rs`): try the first
remaining literal false then true, recurse, and on double failure remove the
literal's binding.  The mutable buffer is threaded explicitly: the result is
(success flag, buffer state after the call). -/
def brute_force (formula : Formula) : List Nat → Solution → Bool × Solution
  | [], solution => (satisfy_formula formula solution, solution)
  | v :: remaining, solution =>
    match brute_force formula remaining (insertVal solution v false) with
    | (true, s) => (true, s)
    | (false, s1) =>
      match brute_force formula remaining (insertVal s1 v true) with
      | (true, s) => (true, s)
      | (false, s2) => (false, eraseKey s2 v)

/-- Rust `solve`: initialize every referenced literal to `false`, then run the
brute-force search. -/
def solve (formula : Formula) : Option Solution :=
  let vars := get_variables formula
  let solution := vars.foldl (fun s v => insertVal s v false) []
  match brute_force formula vars solution with
  | (true, s) => some s
  | (false, _) => none

/-- The blocking clause built in `solve_all` (also `Solution::negative_clause`
in `types.rs`): each bound literal contributes the opposite polarity of its
value. -/
def negative_clause (solution : Solution) : Clause :=
  solution.map (fun p => if p.2 then Variable.Negative p.1 else Variable.Positive p.1)

/-- The `while let` loop of Rust `solve_all`, with explicit fuel: as long as
`solve` succeeds, record the solution and append its blocking clause. -/
def solve_all_loop : Nat → Formula → List Solution
  | 0, _ => []
  | fuel + 1, formula =>
    match solve formula with
    | none => []
    | some solution => solution :: solve_all_loop fuel (formula ++ [negative_clause solution])

/-- Rust `solve_all`: run the blocking-clause loop.  Fuel `2 ^ n` (for `n`
referenced literals) is proved sufficient below (`solve_all_loop_stable`). -/
def solve_all (formula : Formula) : List Solution :=
  solve_all_loop (2 ^ (get_variables formula).length) formula

/-- `Solution::get` of the struct-based variant (`types.rs`): looking up an
unbound id panics.  The panic is modelled as `none`. -/
def Solution.getChecked (solution : Solution) (id : Nat) : Option Bool :=
  lookupVal solution id

/-- All total assignments over an ordered list of literal ids, each in the
canonical association-list form whose keys are exactly the given ids in the
given order; `false` branches are enumerated before `true` branches, so the
list is in lexicographic order of the value vectors. -/
def allAssignments : List Nat → List Solution
  | [] => [[]]
  | v :: rest =>
    (allAssignments rest).map (fun a => (v, false) :: a)
      ++ (allAssignments rest).map (fun a => (v, true) :: a)

/-! ### Basic lemmas about the association-list model of `HashMap` -/

theorem lookupVal_insertVal_self (s : Solution) (id : Nat) (b : Bool) :
    lookupVal (insertVal s id b) id = some b := by
  induction s with
  | nil => simp [insertVal, lookupVal]
  | cons p rest ih =>
    obtain ⟨k, w⟩ := p
    by_cases h : k = id
    · simp [insertVal, h, lookupVal]
    · simp [insertVal, h, lookupVal, ih]

theorem lookupVal_insertVal_ne (s : Solution) (id k : Nat) (b : Bool) (h : k ≠ id) :
    lookupVal (insertVal s id b) k = lookupVal s k := by
  induction s with
  | nil => simp [insertVal, lookupVal, Ne.symm h]
  | cons p rest ih =>
    obtain ⟨k2, w⟩ := p
    by_cases h2 : k2 = id
    · subst h2
      simp [insertVal, lookupVal, Ne.symm h]
    · simp [insertVal, h2, lookupVal, ih]

theorem lookupVal_eraseKey_ne (s : Solution) (id k : Nat) (h : k ≠ id) :
    lookupVal (eraseKey s id) k = lookupVal s k := by
  induction s with
  | nil => simp [eraseKey]
  | cons p rest ih =>
    obtain ⟨k2, w⟩ := p
    by_cases h2 : k2 = id
    · subst h2
      simp [eraseKey, lookupVal, Ne.symm h]
    · simp [eraseKey, h2, lookupVal, ih]

theorem lookupVal_eq_none_of_not_mem (s : Solution) (id : Nat)
    (h : id ∉ s.map Prod.fst) :
    lookupVal s id = none := by
  induction s with
  | nil => rfl
  | cons p rest ih =>
    simp only [List.map_cons, List.mem_cons] at h
    push_neg at h
    obtain ⟨k, w⟩ := p
    simp only [lookupVal]
    rw [if_neg (by simpa using Ne.symm h.1), ih h.2]

theorem lookupVal_of_mem_of_nodupKeys (s : Solution) (id : Nat) (b : Bool)
    (hnd : (s.map Prod.fst).Nodup) (hmem : (id, b) ∈ s) :
    lookupVal s id = some b := by
  induction s with
  | nil => simp at hmem
  | cons p rest ih =>
    obtain ⟨k, w⟩ := p
    simp only [List.map_cons, List.nodup_cons] at hnd
    rcases List.mem_cons.mp hmem with h | h
    · injection h with h1 h2
      subst h1
      subst h2
      simp [lookupVal]
    · have hk : k ≠ id := by
        intro he
        subst he
        exact hnd.1 (List.mem_map.mpr ⟨(k, b), h, rfl⟩)
      simp [lookupVal, hk, ih hnd.2 h]

theorem mem_keys_insertVal (s : Solution) (id k : Nat) (b : Bool) :
    k ∈ (insertVal s id b).map Prod.fst ↔ k ∈ s.map Prod.fst ∨ k = id := by
  induction s with
  | nil => simp [insertVal]
  | cons p rest ih =>
    obtain ⟨k2, w⟩ := p
    by_cases h : k2 = id
    · subst h
      simp [insertVal]
      tauto
    · simp [insertVal, h, ih]
      tauto

theorem nodupKeys_insertVal (s : Solution) (id : Nat) (b : Bool)
    (h : (s.map Prod.fst).Nodup) :
    ((insertVal s id b).map Prod.fst).Nodup := by
  induction s with
  | nil => simp [insertVal]
  | cons p rest ih =>
    obtain ⟨k2, w⟩ := p
    simp only [List.map_cons, List.nodup_cons] at h
    by_cases h2 : k2 = id
    · subst h2
      simpa [insertVal] using h
    · simp only [insertVal, if_neg h2, List.map_cons]
      refine List.nodup_cons.mpr ⟨?_, ih h.2⟩
      intro hk
      rcases (mem_keys_insertVal rest id k2 b).mp hk with hk | hk
      · exact h.1 hk
      · exact h2 hk

theorem keys_eraseKey_subset (s : Solution) (id k : Nat)
    (h : k ∈ (eraseKey s id).map Prod.fst) : k ∈ s.map Prod.fst := by
  induction s with
  | nil => simpa [eraseKey] using h
  | cons p rest ih =>
    obtain ⟨k2, w⟩ := p
    by_cases h2 : k2 = id
    · simp only [eraseKey, if_pos h2] at h
      simp [h]
    · simp only [eraseKey, if_neg h2, List.map_cons, List.mem_cons] at h ⊢
      tauto

theorem nodupKeys_eraseKey (s : Solution) (id : Nat)
    (h : (s.map Prod.fst).Nodup) :
    ((eraseKey s id).map Prod.fst).Nodup := by
  induction s with
  | nil => simpa [eraseKey] using h
  | cons p rest ih =>
    obtain ⟨k2, w⟩ := p
    simp only [List.map_cons, List.nodup_cons] at h
    by_cases h2 : k2 = id
    · simp only [eraseKey, if_pos h2]
      exact h.2
    · simp only [eraseKey, if_neg h2, List.map_cons]
      exact List.nodup_cons.mpr ⟨fun hk => h.1 (keys_eraseKey_subset rest id k2 hk), ih h.2⟩

theorem lookupVal_eraseKey_self (s : Solution) (id : Nat)
    (h : (s.map Prod.fst).Nodup) :
    lookupVal (eraseKey s id) id = none := by
  induction s with
  | nil => rfl
  | cons p rest ih =>
    obtain ⟨k2, w⟩ := p
    simp only [List.map_cons, List.nodup_cons] at h
    by_cases h2 : k2 = id
    · subst h2
      simp only [eraseKey, if_pos rfl]
      exact lookupVal_eq_none_of_not_mem rest k2 h.1
    · simp [eraseKey, h2, lookupVal, ih h.2]

theorem insertVal_append_absent (s t : Solution) (id : Nat) (b : Bool)
    (h : ∀ p ∈ s, p.1 ≠ id) :
    insertVal (s ++ t) id b = s ++ insertVal t id b := by
  induction s with
  | nil => simp
  | cons p rest ih =>
    obtain ⟨k, w⟩ := p
    have hk : k ≠ id := h (k, w) (List.mem_cons_self ..)
    simp only [List.cons_append, insertVal, if_neg hk, List.append_eq]
    rw [ih (fun p hp => h p (List.mem_cons_of_mem _ hp))]

theorem eraseKey_append_singleton (s : Solution) (id : Nat) (b : Bool)
    (h : ∀ p ∈ s, p.1 ≠ id) :
    eraseKey (s ++ [(id, b)]) id = s := by
  induction s with
  | nil => simp [eraseKey]
  | cons p rest ih =>
    obtain ⟨k, w⟩ := p
    have hk : k ≠ id := h (k, w) (List.mem_cons_self ..)
    simp only [List.cons_append, eraseKey, if_neg hk, List.append_eq]
    rw [ih (fun p hp => h p (List.mem_cons_of_mem _ hp))]

/-! ### `dedupAdjacent` and `get_variables` -/

theorem mem_dedupAdjacent (l : List Nat) (x : Nat) : x ∈ dedupAdjacent l ↔ x ∈ l := by
  induction l with
  | nil => simp [dedupAdjacent]
  | cons a rest ih =>
    cases rest with
    | nil => simp [dedupAdjacent]
    | cons b rest2 =>
      by_cases h : a = b
      · subst h
        rw [dedupAdjacent, if_pos rfl, ih]
        simp
      · rw [dedupAdjacent, if_neg h]
        simp only [List.mem_cons] at ih ⊢
        tauto

theorem dedupAdjacent_sorted_lt (l : List Nat) (h : l.Sorted (· ≤ ·)) :
    (dedupAdjacent l).Sorted (· < ·) := by
  induction l with
  | nil => simp [dedupAdjacent]
  | cons a rest ih =>
    cases rest with
    | nil => simp [dedupAdjacent]
    | cons b rest2 =>
      rw [List.sorted_cons] at h
      by_cases hab : a = b
      · rw [dedupAdjacent, if_pos hab]
        exact ih h.2
      · rw [dedupAdjacent, if_neg hab]
        rw [List.sorted_cons]
        refine ⟨?_, ih h.2⟩
        intro c hc
        have hc2 : c ∈ b :: rest2 := (mem_dedupAdjacent _ c).mp hc
        have hbc : b ≤ c := by
          rcases List.mem_cons.mp hc2 with h2 | h2
          · omega
          · exact (List.sorted_cons.mp h.2).1 c h2
        have hab2 : a ≤ b := h.1 b (List.mem_cons_self ..)
        omega

theorem get_variables_sorted (formula : Formula) :
    (get_variables formula).Sorted (· < ·) := by
  unfold get_variables
  apply dedupAdjacent_sorted_lt
  exact List.sorted_insertionSort (· ≤ ·) _

theorem get_variables_nodup (formula : Formula) : (get_variables formula).Nodup :=
  (get_variables_sorted formula).nodup

theorem mem_get_variables (formula : Formula) (id : Nat) :
    id ∈ get_variables formula ↔ ∃ c ∈ formula, ∃ v ∈ c, Variable.varId v = id := by
  unfold get_variables
  rw [mem_dedupAdjacent, List.mem_insertionSort, List.mem_flatten]
  constructor
  · rintro ⟨ids, hids, hid⟩
    obtain ⟨c, hc, rfl⟩ := List.mem_map.mp hids
    obtain ⟨v, hv, rfl⟩ := List.mem_map.mp hid
    exact ⟨c, hc, v, hv, rfl⟩
  · rintro ⟨c, hc, v, hv, rfl⟩
    exact ⟨c.map Variable.varId, List.mem_map.mpr ⟨c, hc, rfl⟩, List.mem_map.mpr ⟨v, hv, rfl⟩⟩

/-! ### `allAssignments` -/

theorem mem_allAssignments (vs : List Nat) (a : Solution) :
    a ∈ allAssignments vs ↔ a.map Prod.fst = vs := by
  induction vs generalizing a with
  | nil =>
    simp [allAssignments, List.map_eq_nil_iff]
  | cons v rest ih =>
    simp only [allAssignments, List.mem_append, List.mem_map]
    constructor
    · rintro (⟨b, hb, rfl⟩ | ⟨b, hb, rfl⟩) <;> simp [(ih b).mp hb]
    · intro h
      cases a with
      | nil => simp at h
      | cons p t =>
        obtain ⟨k, x⟩ := p
        simp only [List.map_cons, List.cons.injEq] at h
        obtain ⟨rfl, ht⟩ := h
        cases x
        · exact Or.inl ⟨t, (ih t).mpr ht, rfl⟩
        · exact Or.inr ⟨t, (ih t).mpr ht, rfl⟩

theorem length_allAssignments (vs : List Nat) :
    (allAssignments vs).length = 2 ^ vs.length := by
  induction vs with
  | nil => rfl
  | cons v rest ih =>
    simp only [allAssignments, List.length_append, List.length_map, ih, List.length_cons]
    ring

theorem nodup_allAssignments (vs : List Nat) : (allAssignments vs).Nodup := by
  induction vs with
  | nil => simp [allAssignments]
  | cons v rest ih =>
    rw [allAssignments, List.nodup_append]
    refine ⟨List.Nodup.map (fun a b h => by injection h) ih,
            List.Nodup.map (fun a b h => by injection h) ih, ?_⟩
    intro a ha hb
    obtain ⟨x, _, rfl⟩ := List.mem_map.mp ha
    obtain ⟨y, _, hy⟩ := List.mem_map.mp hb
    injection hy with h1 h2
    injection h1 with h3 h4
    exact Bool.false_ne_true h4.symm

/-! ### Run characterization of `brute_force`

`brute_force` explores the total assignments over the remaining literals in
the order enumerated by `allAssignments` (false before true at every level)
and succeeds on the first satisfying one.  The buffer is characterized
exactly: the bindings for the already-decided literals (`pre`) stay put, a
successful run returns `pre` extended with the found assignment, and a failed
run erases every remaining literal, returning exactly `pre`. -/

theorem find?_allAssignments_cons (v : Nat) (ws : List Nat) (p : Solution → Bool) :
    (allAssignments (v :: ws)).find? p =
      (((allAssignments ws).find? (fun a => p ((v, false) :: a))).map (fun a => (v, false) :: a)).or
        ((((allAssignments ws).find? (fun a => p ((v, true) :: a))).map (fun a => (v, true) :: a))) := by
  rw [allAssignments, List.find?_append, List.find?_map, List.find?_map]
  rfl

theorem brute_force_run (f : Formula) (rest : List Nat) :
    ∀ (pre tail : Solution),
    rest.Nodup → (∀ p ∈ pre, p.1 ∉ rest) →
    tail.map Prod.fst = rest.take tail.length →
    brute_force f rest (pre ++ tail) =
      match (allAssignments rest).find? (fun a => satisfy_formula f (pre ++ a)) with
      | some a => (true, pre ++ a)
      | none => (false, pre) := by
  induction rest with
  | nil =>
    intro pre tail _ _ htail
    have h0 : List.map Prod.fst tail = [] := by simpa using htail
    have htn : tail = [] := List.map_eq_nil_iff.mp h0
    subst htn
    simp only [List.append_nil]
    cases hsat : satisfy_formula f pre
    · simp [brute_force, allAssignments, List.find?, hsat]
    · simp [brute_force, allAssignments, List.find?, hsat]
  | cons v ws ih =>
    intro pre tail hnd hpre htail
    have hvws : v ∉ ws := (List.nodup_cons.mp hnd).1
    have hndw : ws.Nodup := (List.nodup_cons.mp hnd).2
    have hpv : ∀ p ∈ pre, p.1 ≠ v := fun p hp he => hpre p hp (he ▸ List.mem_cons_self ..)
    have hpw : ∀ p ∈ pre, p.1 ∉ ws := fun p hp hw => hpre p hp (List.mem_cons_of_mem _ hw)
    -- the first insertion produces the canonical shape (pre ++ [(v, false)]) ++ t2
    obtain ⟨t2, heq, ht2⟩ :
        ∃ t2 : Solution, insertVal (pre ++ tail) v false = (pre ++ [(v, false)]) ++ t2
          ∧ t2.map Prod.fst = ws.take t2.length := by
      cases tail with
      | nil =>
        refine ⟨[], ?_, rfl⟩
        rw [insertVal_append_absent _ _ _ _ hpv]
        simp [insertVal]
      | cons q t =>
        obtain ⟨k, b⟩ := q
        simp only [List.map_cons, List.length_cons, List.take_succ_cons, List.cons.injEq] at htail
        obtain ⟨rfl, ht⟩ := htail
        refine ⟨t, ?_, ht⟩
        rw [insertVal_append_absent _ _ _ _ hpv]
        simp [insertVal]
    have hprew : ∀ p ∈ pre ++ [(v, false)], p.1 ∉ ws := by
      intro p hp
      rcases List.mem_append.mp hp with hp | hp
      · exact hpw p hp
      · simp only [List.mem_singleton] at hp
        subst hp
        exact hvws
    have hprew2 : ∀ p ∈ pre ++ [(v, true)], p.1 ∉ ws := by
      intro p hp
      rcases List.mem_append.mp hp with hp | hp
      · exact hpw p hp
      · simp only [List.mem_singleton] at hp
        subst hp
        exact hvws
    simp only [brute_force]
    rw [heq, ih (pre ++ [(v, false)]) t2 hndw hprew ht2]
    rw [find?_allAssignments_cons]
    simp only [List.append_assoc, List.singleton_append]
    cases hF : (allAssignments ws).find? (fun a => satisfy_formula f (pre ++ (v, false) :: a)) with
    | some a => simp
    | none =>
      simp only [Option.map_none, Option.none_or]
      have hins2 : insertVal (pre ++ [(v, false)]) v true = pre ++ [(v, true)] := by
        rw [insertVal_append_absent _ _ _ _ hpv]
        simp [insertVal]
      have ih2 := ih (pre ++ [(v, true)]) [] hndw hprew2 (by simp)
      rw [List.append_nil] at ih2
      rw [hins2, ih2]
      simp only [List.append_assoc, List.singleton_append, List.append_nil]
      cases hT : (allAssignments ws).find? (fun a => satisfy_formula f (pre ++ (v, true) :: a)) with
      | some a => simp
      | none =>
        simp [eraseKey_append_singleton _ _ _ hpv]

/-! ### `solve` finds the first satisfying assignment in enumeration order -/

theorem insertVal_absent (s : Solution) (id : Nat) (b : Bool) (h : ∀ p ∈ s, p.1 ≠ id) :
    insertVal s id b = s ++ [(id, b)] := by
  have h2 := insertVal_append_absent s [] id b h
  simpa using h2

theorem foldl_insertVal_false (vs : List Nat) :
    ∀ s : Solution, (∀ p ∈ s, p.1 ∉ vs) → vs.Nodup →
    vs.foldl (fun s v => insertVal s v false) s = s ++ vs.map (fun v => (v, false)) := by
  induction vs with
  | nil =>
    intro s _ _
    simp
  | cons v rest ih =>
    intro s hs hnd
    simp only [List.foldl_cons]
    have h1 : insertVal s v false = s ++ [(v, false)] :=
      insertVal_absent s v false (fun p hp he => hs p hp (he ▸ List.mem_cons_self ..))
    have h2 : ∀ p ∈ s ++ [(v, false)], p.1 ∉ rest := by
      intro p hp
      rcases List.mem_append.mp hp with hp | hp
      · exact fun hw => hs p hp (List.mem_cons_of_mem _ hw)
      · simp only [List.mem_singleton] at hp
        subst hp
        exact (List.nodup_cons.mp hnd).1
    rw [h1, ih (s ++ [(v, false)]) h2 (List.nodup_cons.mp hnd).2]
    simp

theorem find?_eq_head?_filter (p : Solution → Bool) (l : List Solution) :
    l.find? p = (l.filter p).head? := by
  induction l with
  | nil => rfl
  | cons a l ih =>
    cases h : p a
    · rw [List.find?_cons_of_neg, List.filter_cons_of_neg, ih] <;> simp [h]
    · rw [List.find?_cons_of_pos, List.filter_cons_of_pos] <;> simp [h]

theorem solve_eq_find (f : Formula) :
    solve f = (allAssignments (get_variables f)).find? (fun a => satisfy_formula f a) := by
  have hnd := get_variables_nodup f
  have hfold := foldl_insertVal_false (get_variables f) [] (by simp) hnd
  have hkeys : ((get_variables f).map (fun v => (v, false))).map Prod.fst
      = (get_variables f).take (((get_variables f).map (fun v => (v, false))).length) := by
    rw [List.map_map, show (Prod.fst ∘ fun v : Nat => (v, false)) = id from rfl, List.map_id]
    simp
  have hrun := brute_force_run f (get_variables f) []
    ((get_variables f).map (fun v => (v, false))) hnd (by simp) hkeys
  rw [List.nil_append] at hrun
  simp only [solve, hfold, List.nil_append, hrun]
  cases hfind : (allAssignments (get_variables f)).find? (fun a => satisfy_formula f a) with
  | none => rfl
  | some a => simp

/-! ### The blocking clause -/

theorem eval_variable_cons_ne (w : Variable) (v : Nat) (x : Bool) (a : Solution)
    (h : w.varId ≠ v) :
    eval_variable w ((v, x) :: a) = eval_variable w a := by
  cases w with
  | Positive id =>
    simp only [Variable.varId] at h
    simp [eval_variable, lookupVal, Ne.symm h]
  | Negative id =>
    simp only [Variable.varId] at h
    simp [eval_variable, lookupVal, Ne.symm h]

theorem satisfy_clause_cons_ne (c : Clause) (v : Nat) (x : Bool) (a : Solution)
    (h : ∀ w ∈ c, w.varId ≠ v) :
    satisfy_clause c ((v, x) :: a) = satisfy_clause c a := by
  induction c with
  | nil => rfl
  | cons w c ih =>
    simp only [satisfy_clause, List.any_cons] at ih ⊢
    rw [eval_variable_cons_ne w v x a (h w (List.mem_cons_self ..)),
        ih (fun w2 hw2 => h w2 (List.mem_cons_of_mem _ hw2))]

theorem varId_mem_negative_clause (s : Solution) (w : Variable)
    (h : w ∈ negative_clause s) : w.varId ∈ s.map Prod.fst := by
  obtain ⟨⟨id, val⟩, hp, rfl⟩ := List.mem_map.mp h
  have hv : ((fun p : Nat × Bool =>
      if p.2 then Variable.Negative p.1 else Variable.Positive p.1) (id, val)).varId = id := by
    cases val <;> rfl
  rw [hv]
  exact List.mem_map.mpr ⟨(id, val), hp, rfl⟩

/-- The assignment that produced a blocking clause never satisfies it. -/
theorem satisfy_negative_clause_self (s : Solution) (hnd : (s.map Prod.fst).Nodup) :
    satisfy_clause (negative_clause s) s = false := by
  rw [satisfy_clause, List.any_eq_false]
  intro w hw
  obtain ⟨⟨id, val⟩, hp, rfl⟩ := List.mem_map.mp hw
  have hlook : lookupVal s id = some val := lookupVal_of_mem_of_nodupKeys s id val hnd hp
  cases val <;> simp [eval_variable, hlook]

/-- Any other total assignment over the same literals satisfies the blocking
clause. -/
theorem satisfy_negative_clause_ne (vs : List Nat) (hnd : vs.Nodup) :
    ∀ a b, a ∈ allAssignments vs → b ∈ allAssignments vs → a ≠ b →
    satisfy_clause (negative_clause b) a = true := by
  induction vs with
  | nil =>
    intro a b ha hb hne
    simp only [allAssignments, List.mem_singleton] at ha hb
    subst ha
    subst hb
    exact absurd rfl hne
  | cons v rest ih =>
    have hvrest : v ∉ rest := (List.nodup_cons.mp hnd).1
    have hndr : rest.Nodup := (List.nodup_cons.mp hnd).2
    intro a b ha hb hne
    rw [allAssignments] at ha hb
    rcases List.mem_append.mp ha with ha | ha <;> obtain ⟨a2, ha2, rfl⟩ := List.mem_map.mp ha <;>
      rcases List.mem_append.mp hb with hb | hb <;> obtain ⟨b2, hb2, rfl⟩ := List.mem_map.mp hb
    · -- a = (v,false)::a2, b = (v,false)::b2
      have hne2 : a2 ≠ b2 := fun he => hne (he ▸ rfl)
      simp only [negative_clause, List.map_cons, satisfy_clause, List.any_cons]
      rw [Bool.or_eq_true]
      right
      rw [show (List.map (fun p => if p.2 then Variable.Negative p.1 else Variable.Positive p.1) b2).any
            (fun w => eval_variable w ((v, false) :: a2))
          = satisfy_clause (negative_clause b2) ((v, false) :: a2) from rfl]
      rw [satisfy_clause_cons_ne _ v false a2 ?hids]
      · exact ih hndr a2 b2 ha2 hb2 hne2
      case hids =>
        intro w hw he
        have := varId_mem_negative_clause b2 w hw
        rw [he, (mem_allAssignments rest b2).mp hb2] at this
        exact hvrest this
    · -- a = (v,false)::a2, b = (v,true)::b2 : head literal Negative v is true under a
      simp [negative_clause, satisfy_clause, eval_variable, lookupVal]
    · -- a = (v,true)::a2, b = (v,false)::b2 : head literal Positive v is true under a
      simp [negative_clause, satisfy_clause, eval_variable, lookupVal]
    · -- a = (v,true)::a2, b = (v,true)::b2
      have hne2 : a2 ≠ b2 := fun he => hne (he ▸ rfl)
      simp only [negative_clause, List.map_cons, satisfy_clause, List.any_cons]
      rw [Bool.or_eq_true]
      right
      rw [show (List.map (fun p => if p.2 then Variable.Negative p.1 else Variable.Positive p.1) b2).any
            (fun w => eval_variable w ((v, true) :: a2))
          = satisfy_clause (negative_clause b2) ((v, true) :: a2) from rfl]
      rw [satisfy_clause_cons_ne _ v true a2 ?hids2]
      · exact ih hndr a2 b2 ha2 hb2 hne2
      case hids2 =>
        intro w hw he
        have := varId_mem_negative_clause b2 w hw
        rw [he, (mem_allAssignments rest b2).mp hb2] at this
        exact hvrest this

theorem satisfy_formula_append (f g : Formula) (s : Solution) :
    satisfy_formula (f ++ g) s = (satisfy_formula f s && satisfy_formula g s) := by
  simp [satisfy_formula, List.all_append]

theorem get_variables_append_block (g : Formula) (a : Solution)
    (h : ∀ id ∈ a.map Prod.fst, id ∈ get_variables g) :
    get_variables (g ++ [negative_clause a]) = get_variables g := by
  apply List.eq_of_perm_of_sorted
    ((List.perm_ext_iff_of_nodup (get_variables_nodup _) (get_variables_nodup _)).mpr ?_)
    ((get_variables_sorted _).imp fun hab => le_of_lt hab)
    ((get_variables_sorted _).imp fun hab => le_of_lt hab)
  intro id
  rw [mem_get_variables, mem_get_variables]
  constructor
  · rintro ⟨c, hc, w, hw, rfl⟩
    rcases List.mem_append.mp hc with hc | hc
    · exact (mem_get_variables g w.varId).mp ((mem_get_variables g w.varId).mpr ⟨c, hc, w, hw, rfl⟩)
    · simp only [List.mem_singleton] at hc
      subst hc
      exact (mem_get_variables g w.varId).mp (h w.varId (varId_mem_negative_clause a w hw))
  · rintro ⟨c, hc, w, hw, rfl⟩
    exact ⟨c, List.mem_append.mpr (Or.inl hc), w, hw, rfl⟩

/-! ### The enumeration loop returns exactly the satisfying assignments -/

/-- With enough fuel, the blocking-clause loop returns exactly the satisfying
total assignments over `vs`, in enumeration order. -/
theorem solve_all_loop_eq (vs : List Nat) (hnd : vs.Nodup) : ∀ (fuel : Nat) (g : Formula),
    get_variables g = vs →
    ((allAssignments vs).filter (fun a => satisfy_formula g a)).length ≤ fuel →
    solve_all_loop fuel g = (allAssignments vs).filter (fun a => satisfy_formula g a) := by
  intro fuel
  induction fuel with
  | zero =>
    intro g hg hlen
    have h0 : (allAssignments vs).filter (fun a => satisfy_formula g a) = [] :=
      List.length_eq_zero.mp (Nat.le_zero.mp hlen)
    rw [h0]
    rfl
  | succ fuel ih =>
    intro g hg hlen
    have hsolve : solve g = ((allAssignments vs).filter (fun a => satisfy_formula g a)).head? := by
      rw [solve_eq_find, hg, find?_eq_head?_filter]
    cases hfil : (allAssignments vs).filter (fun a => satisfy_formula g a) with
    | nil =>
      rw [solve_all_loop, hsolve, hfil]
      rfl
    | cons a as =>
      rw [solve_all_loop, hsolve, hfil]
      simp only [List.head?_cons]
      have hmemfil : ∀ x ∈ a :: as, x ∈ allAssignments vs ∧ satisfy_formula g x = true := by
        intro x hx
        rw [← hfil] at hx
        exact ⟨List.mem_of_mem_filter hx, List.of_mem_filter hx⟩
      have hamem : a ∈ allAssignments vs := (hmemfil a (List.mem_cons_self ..)).1
      have hkeys : a.map Prod.fst = vs := (mem_allAssignments vs a).mp hamem
      have hfilnd : (a :: as).Nodup := hfil ▸ (nodup_allAssignments vs).filter _
      have hg2 : get_variables (g ++ [negative_clause a]) = vs := by
        rw [get_variables_append_block g a (fun id hid => hg ▸ hkeys ▸ hid), hg]
      have hfil2 : (allAssignments vs).filter
          (fun x => satisfy_formula (g ++ [negative_clause a]) x) = as := by
        have hcongr : ∀ x ∈ allAssignments vs,
            satisfy_formula (g ++ [negative_clause a]) x
              = (satisfy_clause (negative_clause a) x && satisfy_formula g x) := by
          intro x _
          rw [satisfy_formula_append, Bool.and_comm]
          simp [satisfy_formula]
        rw [List.filter_congr hcongr, ← List.filter_filter, hfil]
        rw [List.filter_cons]
        rw [if_neg (by simp [satisfy_negative_clause_self a (hkeys ▸ hnd)])]
        apply List.filter_eq_self.mpr
        intro x hx
        exact satisfy_negative_clause_ne vs hnd x a (hmemfil x (List.mem_cons_of_mem _ hx)).1
          hamem (fun he => (List.nodup_cons.mp hfilnd).1 (he ▸ hx))
      rw [ih (g ++ [negative_clause a]) hg2 ?_, hfil2]
      rw [hfil2]
      have : (a :: as).length ≤ fuel + 1 := hfil ▸ hlen
      simpa using this

/-- `solve_all` returns exactly the satisfying total assignments over the
referenced literals, in the order `allAssignments` enumerates them. -/
theorem solve_all_spec (f : Formula) :
    solve_all f
      = (allAssignments (get_variables f)).filter (fun a => satisfy_formula f a) := by
  rw [solve_all]
  apply solve_all_loop_eq (get_variables f) (get_variables_nodup f) _ f rfl
  calc ((allAssignments (get_variables f)).filter (fun a => satisfy_formula f a)).length
      ≤ (allAssignments (get_variables f)).length := List.length_filter_le _ _
    _ = 2 ^ (get_variables f).length := length_allAssignments _

/-! ### Lexicographic order of the enumeration -/

/-- `allAssignments` enumerates assignments in strictly increasing
lexicographic order of their value vectors, with `false < true`. -/
theorem pairwise_lex_allAssignments (vs : List Nat) :
    (allAssignments vs).Pairwise
      (fun a b => List.Lex (· < ·) (a.map Prod.snd) (b.map Prod.snd)) := by
  induction vs with
  | nil => simp [allAssignments]
  | cons v rest ih =>
    rw [allAssignments, List.pairwise_append]
    refine ⟨?_, ?_, ?_⟩
    · rw [List.pairwise_map]
      exact ih.imp fun h => List.Lex.cons h
    · rw [List.pairwise_map]
      exact ih.imp fun h => List.Lex.cons h
    · intro a ha b hb
      obtain ⟨a2, _, rfl⟩ := List.mem_map.mp ha
      obtain ⟨b2, _, rfl⟩ := List.mem_map.mp hb
      simp only [List.map_cons]
      exact List.Lex.rel (by decide)

/-- `find?` on a `Pairwise R` list returns an element below every other match. -/
theorem find?_min {α : Type} (R : α → α → Prop) (p : α → Bool) :
    ∀ l : List α, l.Pairwise R → ∀ a, l.find? p = some a →
    ∀ b ∈ l, p b = true → b = a ∨ R a b := by
  intro l
  induction l with
  | nil => intro _ a h; simp at h
  | cons x l ih =>
    intro hl a hfind b hb hpb
    rw [List.pairwise_cons] at hl
    cases hx : p x with
    | true =>
      rw [List.find?_cons_of_pos _ hx, Option.some.injEq] at hfind
      subst hfind
      rcases List.mem_cons.mp hb with rfl | hb
      · exact Or.inl rfl
      · exact Or.inr (hl.1 b hb)
    | false =>
      rw [List.find?_cons_of_neg _ (by simp [hx])] at hfind
      rcases List.mem_cons.mp hb with rfl | hb
      · rw [hpb] at hx
        exact absurd hx (by simp)
      · exact ih hl.2 a hfind b hb hpb

/-! ### Buffer state after a failed search -/

/-- When `brute_force` fails, every literal of the list has been erased from
the buffer, and every binding whose id is not in the list is untouched. -/
theorem brute_force_false_clears (f : Formula) : ∀ (vars : List Nat) (s s2 : Solution),
    (s.map Prod.fst).Nodup →
    brute_force f vars s = (false, s2) →
    (∀ v ∈ vars, lookupVal s2 v = none)
      ∧ (∀ k, k ∉ vars → lookupVal s2 k = lookupVal s k)
      ∧ (s2.map Prod.fst).Nodup := by
  intro vars
  induction vars with
  | nil =>
    intro s s2 hnd h
    simp only [brute_force, Prod.mk.injEq] at h
    obtain ⟨-, rfl⟩ := h
    exact ⟨by simp, fun k _ => rfl, hnd⟩
  | cons v ws ih =>
    intro s s2 hnd h
    simp only [brute_force] at h
    cases hb1 : brute_force f ws (insertVal s v false) with
    | mk ok1 s1 =>
      rw [hb1] at h
      cases ok1 with
      | true => simp at h
      | false =>
        simp only at h
        cases hb2 : brute_force f ws (insertVal s1 v true) with
        | mk ok2 s1b =>
          rw [hb2] at h
          cases ok2 with
          | true => simp at h
          | false =>
            simp only [Prod.mk.injEq] at h
            obtain ⟨-, rfl⟩ := h
            have hnd1 := nodupKeys_insertVal s v false hnd
            obtain ⟨hA1, hF1, hnd2⟩ := ih (insertVal s v false) s1 hnd1 hb1
            have hnd3 := nodupKeys_insertVal s1 v true hnd2
            obtain ⟨hA2, hF2, hnd4⟩ := ih (insertVal s1 v true) s1b hnd3 hb2
            refine ⟨?_, ?_, nodupKeys_eraseKey s1b v hnd4⟩
            · intro w hw
              rcases List.mem_cons.mp hw with rfl | hw
              · exact lookupVal_eraseKey_self s1b w hnd4
              · by_cases hwv : w = v
                · subst hwv
                  exact lookupVal_eraseKey_self s1b w hnd4
                · rw [lookupVal_eraseKey_ne s1b v w hwv]
                  exact hA2 w hw
            · intro k hk
              have hkv : k ≠ v := fun he => hk (he ▸ List.mem_cons_self ..)
              have hkw : k ∉ ws := fun hw => hk (List.mem_cons_of_mem _ hw)
              rw [lookupVal_eraseKey_ne s1b v k hkv, hF2 k hkw,
                  lookupVal_insertVal_ne s1 v k true hkv, hF1 k hkw,
                  lookupVal_insertVal_ne s v k false hkv]

/-! ### The claims -/

/-- C1: Soundness of the all-solutions driver: every assignment in the list
returned by `solve_all f` satisfies the original, unmutated formula `f`. -/
theorem C1_solve_all_sound (f : Formula) (a : Solution) (h : a ∈ solve_all f) :
    satisfy_formula f a = true := by
  rw [solve_all_spec] at h
  exact List.of_mem_filter h

theorem C1_solve_all_sound_witness :
    [(1, false), (2, false), (3, true)]
        ∈ solve_all [[Variable.Positive 1, Variable.Negative 2], [Variable.Positive 3]]
      ∧ satisfy_formula [[Variable.Positive 1, Variable.Negative 2], [Variable.Positive 3]]
          [(1, false), (2, false), (3, true)] = true :=
  ⟨by decide, C1_solve_all_sound _ _ (by decide)⟩

/-- C2: Completeness and no duplicates of the all-solutions driver: `solve_all f`
contains an assignment iff it is a total assignment over `get_variables f`
(canonical association list over exactly those keys) satisfying `f`, and the
result list has no duplicates. -/
theorem C2_solve_all_complete (f : Formula) :
    (∀ a : Solution,
        a ∈ solve_all f ↔ (a.map Prod.fst = get_variables f ∧ satisfy_formula f a = true))
      ∧ (solve_all f).Nodup := by
  constructor
  · intro a
    rw [solve_all_spec, List.mem_filter, mem_allAssignments]
  · rw [solve_all_spec]
    exact (nodup_allAssignments _).filter _

/-- C3: Blocking-clause correctness: a total assignment (unique keys) never
satisfies its own blocking clause, and re-running `solve` on any formula
extended with that blocking clause never returns the assignment again. -/
theorem C3_negative_clause_blocks (s : Solution) (hnd : (s.map Prod.fst).Nodup) :
    satisfy_clause (negative_clause s) s = false
      ∧ ∀ f : Formula, solve (f ++ [negative_clause s]) ≠ some s := by
  refine ⟨satisfy_negative_clause_self s hnd, ?_⟩
  intro f h
  rw [solve_eq_find] at h
  have hsat := List.find?_some h
  rw [satisfy_formula_append] at hsat
  simp only [Bool.and_eq_true] at hsat
  have hblock : satisfy_clause (negative_clause s) s = true := by
    have h2 := hsat.2
    simpa [satisfy_formula] using h2
  rw [satisfy_negative_clause_self s hnd] at hblock
  exact absurd hblock (by simp)

theorem C3_negative_clause_blocks_witness :
    (([(1, true)] : Solution).map Prod.fst).Nodup
      ∧ (satisfy_clause (negative_clause [(1, true)]) [(1, true)] = false
        ∧ ∀ f : Formula, solve (f ++ [negative_clause [(1, true)]]) ≠ some [(1, true)]) :=
  ⟨by decide, C3_negative_clause_blocks [(1, true)] (by decide)⟩

/-- C4: Tie-break order of a single `solve` call: the result is a total
assignment over `get_variables f` (ascending ids), it satisfies `f`, and it is
lexicographically least (false before true, literals in the ascending order)
among all satisfying total assignments. -/
theorem C4_solve_tie_break (f : Formula) (a : Solution) (h : solve f = some a) :
    a.map Prod.fst = get_variables f
      ∧ satisfy_formula f a = true
      ∧ ∀ b : Solution, b.map Prod.fst = get_variables f → satisfy_formula f b = true →
          b ≠ a → List.Lex (· < ·) (a.map Prod.snd) (b.map Prod.snd) := by
  rw [solve_eq_find] at h
  have hmem := List.mem_of_find?_eq_some h
  have hsat := List.find?_some h
  refine ⟨(mem_allAssignments _ a).mp hmem, hsat, ?_⟩
  intro b hbk hbs hne
  have hbmem := (mem_allAssignments (get_variables f) b).mpr hbk
  rcases find?_min _ _ (allAssignments (get_variables f))
      (pairwise_lex_allAssignments (get_variables f)) a h b hbmem hbs with rfl | hR
  · exact absurd rfl hne
  · exact hR

theorem C4_solve_tie_break_witness :
    solve [[Variable.Positive 1, Variable.Negative 2], [Variable.Positive 3]]
        = some [(1, false), (2, false), (3, true)]
      ∧ (([(1, false), (2, false), (3, true)] : Solution).map Prod.fst
            = get_variables [[Variable.Positive 1, Variable.Negative 2], [Variable.Positive 3]]
        ∧ satisfy_formula [[Variable.Positive 1, Variable.Negative 2], [Variable.Positive 3]]
            [(1, false), (2, false), (3, true)] = true
        ∧ ∀ b : Solution,
            b.map Prod.fst
              = get_variables [[Variable.Positive 1, Variable.Negative 2], [Variable.Positive 3]] →
            satisfy_formula [[Variable.Positive 1, Variable.Negative 2], [Variable.Positive 3]] b
              = true →
            b ≠ [(1, false), (2, false), (3, true)] →
            List.Lex (· < ·) (([(1, false), (2, false), (3, true)] : Solution).map Prod.snd)
              (b.map Prod.snd)) :=
  ⟨by decide, C4_solve_tie_break _ _ (by decide)⟩

/-- C5: Termination of the enumeration loop: `solve_all` performs at most
`2 ^ n` successful iterations (`n` = number of referenced literals), and any
fuel of at least `2 ^ n` yields the same, stable result — the loop halts. -/
theorem C5_solve_all_terminates (f : Formula) :
    (solve_all f).length ≤ 2 ^ (get_variables f).length
      ∧ ∀ fuel : Nat, 2 ^ (get_variables f).length ≤ fuel →
          solve_all_loop fuel f = solve_all f := by
  have hlen : ((allAssignments (get_variables f)).filter (fun a => satisfy_formula f a)).length
      ≤ 2 ^ (get_variables f).length := by
    calc ((allAssignments (get_variables f)).filter (fun a => satisfy_formula f a)).length
        ≤ (allAssignments (get_variables f)).length := List.length_filter_le _ _
      _ = 2 ^ (get_variables f).length := length_allAssignments _
  constructor
  · rw [solve_all_spec]
    exact hlen
  · intro fuel hfuel
    rw [solve_all_spec]
    exact solve_all_loop_eq (get_variables f) (get_variables_nodup f) fuel f rfl
      (le_trans hlen hfuel)

theorem C5_solve_all_terminates_witness :
    (solve_all [[Variable.Positive 1]]).length ≤ 2 ^ (get_variables [[Variable.Positive 1]]).length
      ∧ solve_all_loop 5 [[Variable.Positive 1]] = solve_all [[Variable.Positive 1]] :=
  ⟨(C5_solve_all_terminates [[Variable.Positive 1]]).1,
    (C5_solve_all_terminates [[Variable.Positive 1]]).2 5 (by decide)⟩

/-- C6: `get_variables` contract: the referenced-literal list is strictly
ascending (hence duplicate-free) and contains exactly the ids occurring in
some clause, ignoring polarity. -/
theorem C6_get_variables_contract (f : Formula) :
    (get_variables f).Sorted (· < ·)
      ∧ (get_variables f).Nodup
      ∧ ∀ id : Nat, (id ∈ get_variables f ↔ ∃ c ∈ f, ∃ v ∈ c, Variable.varId v = id) :=
  ⟨get_variables_sorted f, get_variables_nodup f, fun id => mem_get_variables f id⟩

/-- C7: Unassigned-literal lookup policy: on an id with no binding, the
struct-based variant's `Solution::get` panics (modelled as `none`), while the
function-based `eval_variable` silently defaults the id to false, so a
positive occurrence evaluates to `false` and a negative one to `true`. -/
theorem C7_unassigned_lookup_policy (s : Solution) (id : Nat)
    (h : lookupVal s id = none) :
    Solution.getChecked s id = none
      ∧ eval_variable (Variable.Positive id) s = false
      ∧ eval_variable (Variable.Negative id) s = true := by
  refine ⟨h, ?_, ?_⟩ <;> simp [eval_variable, h]

theorem C7_unassigned_lookup_policy_witness :
    lookupVal [(2, true)] 1 = none
      ∧ (Solution.getChecked [(2, true)] 1 = none
        ∧ eval_variable (Variable.Positive 1) [(2, true)] = false
        ∧ eval_variable (Variable.Negative 1) [(2, true)] = true) :=
  ⟨by decide, C7_unassigned_lookup_policy [(2, true)] 1 (by decide)⟩

/-- C8 counterexample: a failed `brute_force` call does NOT return the buffer
to its pre-call state when the buffer held a stale binding for the first
literal: with formula `[[]]`, literals `[1]` and buffer `[(1, true)]`, the
call fails with final buffer `[]`, and the binding of literal 1 (present
before) is gone afterwards. -/
theorem C8_restore_counterexample :
    brute_force [[]] [1] [(1, true)] = (false, [])
      ∧ lookupVal ([] : Solution) 1 ≠ lookupVal [(1, true)] 1 := by decide

/-- C8 (amended): when `brute_force` fails on a buffer with unique keys, the
first literal's binding has been removed entirely — so the buffer equals its
pre-call state for that id exactly when the id was unbound on entry (a stale
binding is cleared, not restored) — and bindings outside the literal list are
untouched. -/
theorem C8_failure_clears_first (f : Formula) (v : Nat) (vars : List Nat) (s s2 : Solution)
    (hnd : (s.map Prod.fst).Nodup) (h : brute_force f (v :: vars) s = (false, s2)) :
    lookupVal s2 v = none
      ∧ (lookupVal s v = none → lookupVal s2 v = lookupVal s v)
      ∧ ∀ k, k ∉ v :: vars → lookupVal s2 k = lookupVal s k := by
  obtain ⟨hA, hF, -⟩ := brute_force_false_clears f (v :: vars) s s2 hnd h
  have h1 := hA v (List.mem_cons_self ..)
  exact ⟨h1, fun h0 => h1.trans h0.symm, hF⟩

theorem C8_failure_clears_first_witness :
    (([] : Solution).map Prod.fst).Nodup
      ∧ brute_force [[]] [1] [] = (false, [])
      ∧ (lookupVal ([] : Solution) 1 = none
        ∧ (lookupVal ([] : Solution) 1 = none → lookupVal ([] : Solution) 1 = lookupVal [] 1)
        ∧ ∀ k, k ∉ [1] → lookupVal ([] : Solution) k = lookupVal [] k) :=
  ⟨by decide, by decide, C8_failure_clears_first [[]] 1 [] [] [] (by decide) (by decide)⟩

/-- C9: Empty-formula behaviour: a formula with zero clauses is satisfied by
every assignment, a single `solve` call returns the empty (all-default)
assignment, and `solve_all` returns exactly that one assignment. -/
theorem C9_empty_formula :
    (∀ a : Solution, satisfy_formula [] a = true)
      ∧ solve ([] : Formula) = some []
      ∧ solve_all ([] : Formula) = [[]] :=
  ⟨fun _ => rfl, by decide, by decide⟩

/-- C10: An empty clause is satisfied by no assignment, so a formula
containing one is unsatisfied by every assignment and `solve` returns `none`
on it. -/
theorem C10_empty_clause (f : Formula) (h : ([] : Clause) ∈ f) :
    (∀ a : Solution, satisfy_clause ([] : Clause) a = false)
      ∧ (∀ a : Solution, satisfy_formula f a = false)
      ∧ solve f = none := by
  have hform : ∀ a : Solution, satisfy_formula f a = false := by
    intro a
    rw [satisfy_formula]
    exact List.all_eq_false.mpr ⟨[], h, by simp [satisfy_clause]⟩
  refine ⟨fun _ => rfl, hform, ?_⟩
  rw [solve_eq_find]
  exact List.find?_eq_none.mpr (fun a _ => by simp [hform a])

theorem C10_empty_clause_witness :
    ([] : Clause) ∈ ([[]] : Formula)
      ∧ ((∀ a : Solution, satisfy_clause ([] : Clause) a = false)
        ∧ (∀ a : Solution, satisfy_formula ([[]] : Formula) a = false)
        ∧ solve ([[]] : Formula) = none) :=
  ⟨by decide, C10_empty_clause [[]] (by decide)⟩

-- sanity checks on concrete inputs, mirroring the repository's unit tests
example : solve [[Variable.Positive 1], [Variable.Negative 1]] = none := by decide
example :
    solve_all [[Variable.Positive 1, Variable.Negative 2], [Variable.Positive 3]] =
      [[(1, false), (2, false), (3, true)],
       [(1, true), (2, false), (3, true)],
       [(1, true), (2, true), (3, true)]] := by decide
example :
    solve_all [[Variable.Positive 1, Variable.Positive 2],
               [Variable.Positive 1, Variable.Negative 2],
               [Variable.Negative 1, Variable.Positive 2]] = [[(1, true), (2, true)]] := by
  decide
